import Mathlib

/-!
Verification of the dependency-parser repository: a shallow embedding of
`src/enhanced_ninja_parser.py` and `src/selective_test_filter.py` in Lean 4,
together with theorems settling the specification claims.

Strings are embedded as `List Char` (`Str`); Python dicts as association
lists in insertion order with last-write-wins update; Python sets as
duplicate-free lists in insertion order (a set's run-dependent iteration
order is modelled by quantifying over permutations of these lists).
-/

abbrev Str := List Char

def strL (s : String) : Str := s.data

/-- Python whitespace for `str.strip` / `str.split` / regex `\s` (ASCII range). -/
def pyIsSpace (c : Char) : Bool :=
  c = ' ' ∨ c = '\t' ∨ c = '\n' ∨ c = '\r' ∨ c = Char.ofNat 11 ∨ c = Char.ofNat 12

/-- Python `str.strip()`: remove leading and trailing whitespace. -/
def pyStrip (s : Str) : Str :=
  ((s.dropWhile pyIsSpace).reverse.dropWhile pyIsSpace).reverse

/-- Split a string at every character satisfying `p` (keeping empty pieces),
as Python `str.split(sep)` does for a one-character separator. -/
def splitOnPred (p : Char → Bool) : Str → List Str
  | [] => [[]]
  | c :: t =>
    match splitOnPred p t with
    | [] => [[]]
    | h :: r => if p c then [] :: h :: r else (c :: h) :: r

/-- Python `content.split('\n')`. -/
def splitOnNl (s : Str) : List Str := splitOnPred (fun c => c = '\n') s

/-- Python `str.split()` with no argument: whitespace-delimited tokens,
leading/trailing/repeated whitespace ignored. -/
def pySplit (s : Str) : List Str :=
  (splitOnPred pyIsSpace s).filter (fun t => ¬ t.isEmpty)

/-- Python substring test `needle in haystack`. -/
def strIn (n : Str) : Str → Bool
  | [] => n.isEmpty
  | c :: t => n.isPrefixOf (c :: t) || strIn n t

/-- Lexicographic comparison of strings by code point, matching how Python
`sorted` orders `str` values. -/
def strLe : Str → Str → Bool
  | [], _ => true
  | _ :: _, [] => false
  | a :: as, b :: bs => if a < b then true else if b < a then false else strLe as bs

/-- Python `sorted` on a list of strings. -/
def sortStr (l : List Str) : List Str :=
  List.insertionSort (fun a b => strLe a b = true) l

/-- Lookup in an association list (Python dict indexing, `None` when absent). -/
def lookupA {α : Type} : List (Str × α) → Str → Option α
  | [], _ => none
  | (k, v) :: t, key => if k = key then some v else lookupA t key

/-- The value set stored under a key, empty when the key is absent. -/
def lookupList (m : List (Str × List Str)) (k : Str) : List Str :=
  (lookupA m k).getD []

/-- Python dict assignment `d[k] = v`: overwrite in place, or append a new key. -/
def dictInsert {α : Type} (m : List (Str × α)) (k : Str) (v : α) : List (Str × α) :=
  match m with
  | [] => [(k, v)]
  | (k', v') :: t => if k' = k then (k, v) :: t else (k', v') :: dictInsert t k v

/-- Python `defaultdict(set)` update `d[k].add(v)`: create the set on first
insertion, otherwise add `v` if absent (sets hold no duplicates). -/
def addToSet (m : List (Str × List Str)) (k : Str) (v : Str) : List (Str × List Str) :=
  match m with
  | [] => [(k, [v])]
  | (k', l) :: t =>
    if k' = k then (k', if v ∈ l then l else l ++ [v]) :: t
    else (k', l) :: addToSet t k v

/-- Python `set.add` on a flat set. -/
def setInsert (l : List Str) (v : Str) : List Str :=
  if v ∈ l then l else l ++ [v]

def keysOf {α : Type} (m : List (Str × α)) : List Str := m.map Prod.fst

/-! ## PathClassifier: `_is_project_file` (enhanced_ninja_parser.py lines 179-198) -/

def include_prefixes : List Str :=
  [strL "include/", strL "library/", strL "test/", strL "example/", strL "src/",
   strL "profiler/", strL "build-ninja/include/", strL "build-ninja/_deps/gtest"]

def exclude_prefixes : List Str :=
  [strL "/usr/", strL "/opt/rocm", strL "/lib/", strL "/system/"]

def source_extensions : List Str :=
  [strL ".cpp", strL ".hpp", strL ".h", strL ".c", strL ".cc", strL ".cxx",
   strL ".cu", strL ".hip"]

/-- `_is_project_file`: include prefixes first, then exclude prefixes, then the
extension allow-list, else `False`. -/
def is_project_file (p : Str) : Bool :=
  if include_prefixes.any (fun pre => pre.isPrefixOf p) then true
  else if exclude_prefixes.any (fun pre => pre.isPrefixOf p) then false
  else if source_extensions.any (fun ext => ext.isSuffixOf p) then true
  else false

/-! ## BuildGraphParser: `_parse_build_file` (lines 50-85)

The two regexes are translated by hand.  `re.match` anchors at the start of
the line; `[^:]+` cannot cross a colon, so both patterns split the line at its
first colon; `\s+\S+\s+` after backtracking consumes the maximal whitespace
run, the maximal non-whitespace run (the rule name), then at least one more
whitespace character. -/

/-- Match of `^build (bin/[^:]+):\s+\S+\s+([^|]+)` against one line, returning
`(group 1, the region whose whitespace-separated tokens are those of group 2)`.
Group 2 is `[^|]+`: after the final `\s+` the regex succeeds when either at
least two whitespace characters precede the dependency region (backtracking
lets `[^|]+` consume a whitespace character) or the region is non-empty and
does not start with `|`; in every success case `group(2).strip().split()`
equals the tokens of the region before the first `|`. -/
def exeMatch (line : Str) : Option (Str × Str) :=
  if (strL "build bin/").isPrefixOf line then
    let rest0 := line.drop 10
    let seg := rest0.takeWhile (fun c => c ≠ ':')
    let rest1 := rest0.dropWhile (fun c => c ≠ ':')
    match rest1 with
    | [] => none
    | _ :: afterColon =>
      if seg.isEmpty then none
      else
        let w1 := afterColon.takeWhile pyIsSpace
        let r1 := afterColon.dropWhile pyIsSpace
        let tok := r1.takeWhile (fun c => ¬ pyIsSpace c)
        let r2 := r1.dropWhile (fun c => ¬ pyIsSpace c)
        let w2 := r2.takeWhile pyIsSpace
        let rest := r2.dropWhile pyIsSpace
        if w1.isEmpty || tok.isEmpty || w2.isEmpty then none
        else if 2 ≤ w2.length || (match rest with
                                  | [] => false
                                  | c :: _ => c ≠ '|') then
          some (strL "bin/" ++ seg, rest.takeWhile (fun c => c ≠ '|'))
        else none
  else none

/-- The compiled-object suffix test of `^build ([^:]+\.(?:cpp|cu|hip)\.o):` —
the whole segment before the first colon must be `[^:]+` followed by one of
the three suffixes, so the segment ends with the suffix and is strictly
longer than it. -/
def objSuffixOk (seg : Str) : Bool :=
  ((strL ".cpp.o").isSuffixOf seg ∧ 6 < seg.length) ∨
  ((strL ".cu.o").isSuffixOf seg ∧ 5 < seg.length) ∨
  ((strL ".hip.o").isSuffixOf seg ∧ 6 < seg.length)

/-- Match of `^build ([^:]+\.(?:cpp|cu|hip)\.o):\s+\S+\s+([^\s|]+)` against one
line, returning `(group 1, group 2)`.  Group 2 admits no backtracking help:
after the maximal second whitespace run the next character must exist and be
neither whitespace nor `|`. -/
def objMatch (line : Str) : Option (Str × Str) :=
  if (strL "build ").isPrefixOf line then
    let rest0 := line.drop 6
    let seg := rest0.takeWhile (fun c => c ≠ ':')
    let rest1 := rest0.dropWhile (fun c => c ≠ ':')
    match rest1 with
    | [] => none
    | _ :: afterColon =>
      if objSuffixOk seg then
        let w1 := afterColon.takeWhile pyIsSpace
        let r1 := afterColon.dropWhile pyIsSpace
        let tok := r1.takeWhile (fun c => ¬ pyIsSpace c)
        let r2 := r1.dropWhile (fun c => ¬ pyIsSpace c)
        let w2 := r2.takeWhile pyIsSpace
        let rest := r2.dropWhile pyIsSpace
        if w1.isEmpty || tok.isEmpty || w2.isEmpty then none
        else
          match rest with
          | [] => none
          | c :: _ =>
            if c = '|' then none
            else some (seg, rest.takeWhile (fun d => ¬ pyIsSpace d ∧ d ≠ '|'))
      else none
  else none

/-- Qualification test on a matched executable line:
`'EXECUTABLE' in line or 'test_' in exe_match.group(1) or 'example_' in
exe_match.group(1)`. -/
def isExeQualified (line name : Str) : Bool :=
  strIn (strL "EXECUTABLE") line || strIn (strL "test_") name ||
    strIn (strL "example_") name

/-- Collect dependencies of an executable rule: every whitespace token of the
deps region that ends in `.o` and does not start with `/`. -/
def objectFilesOf (depsRegion : Str) : List Str :=
  (pySplit depsRegion).filter
    (fun d => (strL ".o").isSuffixOf d ∧ ¬ ((strL "/").isPrefixOf d))

structure ParserState where
  executable_to_objects : List (Str × List Str)
  object_to_source : List (Str × Str)
deriving DecidableEq

/-- One iteration of the line loop of `_parse_build_file`: try the executable
pattern with its qualification test first (`continue` on success), then the
object pattern. -/
def parse_build_line (st : ParserState) (line : Str) : ParserState :=
  match exeMatch line with
  | some (name, depsRegion) =>
    if isExeQualified line name then
      { st with executable_to_objects :=
          dictInsert st.executable_to_objects name (objectFilesOf depsRegion) }
    else
      match objMatch line with
      | some (o, s) => { st with object_to_source := dictInsert st.object_to_source o s }
      | none => st
  | none =>
    match objMatch line with
    | some (o, s) => { st with object_to_source := dictInsert st.object_to_source o s }
    | none => st

/-- `_parse_build_file` over the whole graph text. -/
def parse_build_file (content : Str) : ParserState :=
  (splitOnNl content).foldl parse_build_line ⟨[], []⟩

/-! ## DependencyExtractor: `_get_object_dependencies` (lines 119-153) and
`_extract_object_dependencies` (lines 87-117) -/

/-- Outcome of one `ninja -t deps <object>` subprocess invocation. -/
inductive InvocationResult where
  | exited (returncode : Int) (stdout : Str)
  | timedOut
  | raised
deriving DecidableEq

def isFailureRes : InvocationResult → Bool
  | .exited rc _ => rc ≠ 0
  | .timedOut => true
  | .raised => true

/-- `ws_prefix = ws_root.rstrip("/") + "/"`. -/
def wsPrefOf (wsRoot : Str) : Str :=
  ((wsRoot.reverse.dropWhile (fun c => c = '/')).reverse) ++ [ '/' ]

/-- The per-line loop of `_get_object_dependencies`: strip each line, skip it
when empty or starting with `#`, otherwise strip the workspace prefix when
present and record the result. -/
def depLoop (wsPref : Str) : List Str → List Str
  | [] => []
  | l :: ls =>
    let s := pyStrip l
    if ¬ s.isEmpty ∧ ¬ ((strL "#").isPrefixOf s) then
      (if wsPref.isPrefixOf s then s.drop wsPref.length else s) :: depLoop wsPref ls
    else depLoop wsPref ls

/-- `_get_object_dependencies`: timeout and any raised error are caught and
yield `[]`; a non-zero exit yields `[]`; otherwise the stdout is stripped,
split into lines, the first (metadata) line discarded and the rest parsed. -/
def get_object_dependencies (wsRoot : Str) (res : InvocationResult) : List Str :=
  match res with
  | .timedOut => []
  | .raised => []
  | .exited rc out =>
    if rc ≠ 0 then []
    else depLoop (wsPrefOf wsRoot) ((splitOnNl (pyStrip out)).drop 1)

/-- `_extract_object_dependencies`: every object file is submitted and every
future's result is recorded under its own key (`_get_object_dependencies`
catches all exceptions internally, so no per-object failure removes a key).
Completion order only permutes dict insertion order; the recorded value for
each object is a function of that object alone. -/
def extract_object_dependencies (run : Str → InvocationResult) (wsRoot : Str)
    (objectFiles : List Str) : List (Str × List Str) :=
  objectFiles.map (fun o => (o, get_object_dependencies wsRoot (run o)))

/-! ## ReverseIndexBuilder: `_build_file_to_executable_mapping` (lines 155-177) -/

/-- Triple loop of `_build_file_to_executable_mapping`: for every executable,
for every one of its objects that has a recorded dependency list, for every
project-relevant dependency, add the executable to that file's set. -/
def build_file_to_executable_mapping (exeToObjs : List (Str × List Str))
    (objToAllDeps : List (Str × List Str)) : List (Str × List Str) :=
  exeToObjs.foldl (fun ftoe p =>
    p.2.foldl (fun ftoe2 objFile =>
      match lookupA objToAllDeps objFile with
      | some deps => deps.foldl (fun ftoe3 depFile =>
          if is_project_file depFile then addToSet ftoe3 depFile p.1 else ftoe3) ftoe2
      | none => ftoe2) ftoe) []

/-! ## Export: `export_to_json` (lines 212-238) -/

/-- The reverse map built at export time: iterate `file_to_executables` in
key order and each value set in its iteration order, adding the file under
each executable. -/
def exeToFilesOf (ftoe : List (Str × List Str)) : List (Str × List Str) :=
  ftoe.foldl (fun acc p => p.2.foldl (fun acc2 e => addToSet acc2 e p.1) acc) []

structure ExportedMapping where
  fileToExecutables : List (Str × List Str)
  executableToFiles : List (Str × List Str)
  totalFiles : Nat
  totalExecutables : Nat
  totalObjectFiles : Nat
  filesWithMultipleExecutables : Nat
deriving DecidableEq

/-- `export_to_json`: `file_to_executables` serializes each value set by
`list(exes)` — verbatim in iteration order, unsorted; `executable_to_files`
sorts each file list; the statistics count the three dicts and the files
with more than one executable. -/
def export_to_json (exeToObjs : List (Str × List Str)) (objToSource : List (Str × Str))
    (ftoe : List (Str × List Str)) : ExportedMapping :=
  { fileToExecutables := ftoe
    executableToFiles := (exeToFilesOf ftoe).map (fun p => (p.1, sortStr p.2))
    totalFiles := ftoe.length
    totalExecutables := exeToObjs.length
    totalObjectFiles := objToSource.length
    filesWithMultipleExecutables := (ftoe.filter (fun p => 1 < p.2.length)).length }

/-! ## ImpactQueryEngine: `select_tests` (selective_test_filter.py lines 52-62) -/

/-- The per-executable filter inside `select_tests`. -/
def filterOk (filter_mode : Str) (exe : Str) : Bool :=
  filter_mode = strL "all" ||
    (filter_mode = strL "test_prefix" && (strL "test_").isPrefixOf exe)

/-- `select_tests`: union the executable lists of the changed files present in
the mapping, filtered per executable, deduplicated as a set, then sorted. -/
def select_tests (file_to_executables : List (Str × List Str)) (changed_files : List Str)
    (filter_mode : Str) : List Str :=
  sortStr (changed_files.foldl (fun acc f =>
    match lookupA file_to_executables f with
    | some exes => exes.foldl (fun acc2 e =>
        if filterOk filter_mode e then setInsert acc2 e else acc2) acc
    | none => acc) [])

/-! ## Definitions following the claims' words (for refinement comparisons) -/

/-- Claim C6's described transformation, taken at its words: take the lines of
the tool's output, discard the first, drop every empty line and every line
beginning with `#`, strip the workspace prefix from a line that starts with
it, and keep every other line verbatim. -/
def specDepListing (wsRoot : Str) (stdout : Str) : List Str :=
  (((splitOnNl stdout).drop 1).filter
      (fun l => ¬ l.isEmpty ∧ ¬ ((strL "#").isPrefixOf l))).map
    (fun l => if (wsPrefOf wsRoot).isPrefixOf l then l.drop (wsPrefOf wsRoot).length else l)

/-- The amended form of claim C6's transformation: same pipeline, but applied
to the lines of the whitespace-stripped stdout and with each line
whitespace-stripped before the blank/comment tests and the prefix strip. -/
def amendedDepListing (wsRoot : Str) (stdout : Str) : List Str :=
  ((((splitOnNl (pyStrip stdout)).drop 1).map pyStrip).filter
      (fun s => ¬ s.isEmpty ∧ ¬ ((strL "#").isPrefixOf s))).map
    (fun s => if (wsPrefOf wsRoot).isPrefixOf s then s.drop (wsPrefOf wsRoot).length else s)

/-- Canonical sort of an association-list map: keys sorted, each value list
sorted, duplicate keys collapsed to the first binding. -/
def canonAssoc (m : List (Str × List Str)) : List (Str × List Str) :=
  (sortStr (keysOf m)).map (fun k => (k, sortStr (lookupList m k)))

/-- Canonical sort of the exported JSON: both maps in canonical form,
statistics unchanged. -/
def canonExport (E : ExportedMapping) : ExportedMapping :=
  { E with fileToExecutables := canonAssoc E.fileToExecutables
           executableToFiles := canonAssoc E.executableToFiles }

/-- Occurrence count of a string in a list. -/
def countStr (x : Str) : List Str → Nat
  | [] => 0
  | y :: t => (if y = x then 1 else 0) + countStr x t

/-- Boolean multiset equality of two string lists. -/
def multisetEqB (l₁ l₂ : List Str) : Bool :=
  l₁.all (fun x => countStr x l₁ = countStr x l₂) &&
  l₂.all (fun x => countStr x l₁ = countStr x l₂)

/-- Two `file → executables` maps that agree up to the iteration order of each
value set: same keys in the same order, each value list a permutation of its
counterpart.  This is exactly the run-to-run variation the Python `set`
iteration order can introduce in `export_to_json`. -/
def valuePermEq : List (Str × List Str) → List (Str × List Str) → Bool
  | [], [] => true
  | p :: t, q :: u => decide (p.1 = q.1) && multisetEqB p.2 q.2 && valuePermEq t u
  | _, _ => false

/-! ## Order lemmas for `strLe` and `sortStr` -/

theorem strLe_total : ∀ a b : Str, strLe a b = true ∨ strLe b a = true := by
  intro a
  induction a with
  | nil => intro b; left; rfl
  | cons x xs ih =>
    intro b
    cases b with
    | nil => right; rfl
    | cons y ys =>
      by_cases h1 : x < y
      · left; simp [strLe, h1]
      · by_cases h2 : y < x
        · right; simp [strLe, h2, h1]
        · have := ih ys
          simp [strLe, h1, h2]
          exact this

theorem strLe_trans : ∀ a b c : Str, strLe a b = true → strLe b c = true →
    strLe a c = true := by
  intro a
  induction a with
  | nil => intro b c _ _; rfl
  | cons x xs ih =>
    intro b c hab hbc
    cases b with
    | nil => simp [strLe] at hab
    | cons y ys =>
      cases c with
      | nil => simp [strLe] at hbc
      | cons z zs =>
        simp only [strLe] at hab hbc ⊢
        rcases lt_trichotomy x y with h1 | h1 | h1
        · rcases lt_trichotomy y z with h2 | h2 | h2
          · have hxz : x < z := lt_trans h1 h2
            simp [hxz]
          · subst h2; simp [h1]
          · rw [if_neg (asymm h2), if_pos h2] at hbc
            simp at hbc
        · subst h1
          rw [if_neg (lt_irrefl x), if_neg (lt_irrefl x)] at hab
          rcases lt_trichotomy x z with h2 | h2 | h2
          · simp [h2]
          · subst h2
            rw [if_neg (lt_irrefl x), if_neg (lt_irrefl x)] at hbc ⊢
            exact ih ys zs hab hbc
          · rw [if_neg (asymm h2), if_pos h2] at hbc
            simp at hbc
        · rw [if_neg (asymm h1), if_pos h1] at hab
          simp at hab

theorem strLe_antisymm : ∀ a b : Str, strLe a b = true → strLe b a = true →
    a = b := by
  intro a
  induction a with
  | nil =>
    intro b _ hba
    cases b with
    | nil => rfl
    | cons y ys => simp [strLe] at hba
  | cons x xs ih =>
    intro b hab hba
    cases b with
    | nil => simp [strLe] at hab
    | cons y ys =>
      simp only [strLe] at hab hba
      rcases lt_trichotomy x y with h | h | h
      · rw [if_neg (asymm h), if_pos h] at hba; simp at hba
      · subst h
        rw [if_neg (lt_irrefl x), if_neg (lt_irrefl x)] at hab hba
        rw [ih ys hab hba]
      · rw [if_neg (asymm h), if_pos h] at hab; simp at hab

instance : IsTotal Str (fun a b => strLe a b = true) := ⟨strLe_total⟩

instance : IsTrans Str (fun a b => strLe a b = true) := ⟨strLe_trans⟩

instance : IsAntisymm Str (fun a b => strLe a b = true) := ⟨strLe_antisymm⟩

theorem sortStr_perm (l : List Str) : List.Perm (sortStr l) l :=
  List.perm_insertionSort _ l

theorem mem_sortStr {a : Str} {l : List Str} : a ∈ sortStr l ↔ a ∈ l :=
  (sortStr_perm l).mem_iff

theorem sortStr_sorted (l : List Str) :
    List.Sorted (fun a b => strLe a b = true) (sortStr l) :=
  List.sorted_insertionSort _ l

theorem sortStr_eq_of_perm {l₁ l₂ : List Str} (h : List.Perm l₁ l₂) :
    sortStr l₁ = sortStr l₂ :=
  List.eq_of_perm_of_sorted ((sortStr_perm l₁).trans (h.trans (sortStr_perm l₂).symm))
    (sortStr_sorted l₁) (sortStr_sorted l₂)

theorem sortStr_nodup {l : List Str} (h : l.Nodup) : (sortStr l).Nodup :=
  ((sortStr_perm l).nodup_iff).mpr h

/-! ## Association-list lemmas -/

theorem lookupA_addToSet (m : List (Str × List Str)) (k v f : Str) :
    lookupA (addToSet m k v) f =
      if f = k then
        some (if v ∈ lookupList m k then lookupList m k else lookupList m k ++ [v])
      else lookupA m f := by
  induction m with
  | nil =>
    by_cases h : f = k
    · subst h; simp [addToSet, lookupList, lookupA]
    · simp [addToSet, lookupList, lookupA, h, Ne.symm h]
  | cons p t ih =>
    obtain ⟨k₀, l₀⟩ := p
    by_cases hk : k₀ = k
    · subst hk
      by_cases hf : f = k₀
      · subst hf; simp [addToSet, lookupList, lookupA]
      · simp [addToSet, lookupList, lookupA, hf, Ne.symm hf]
    · by_cases hf : f = k₀
      · subst hf
        simp [addToSet, lookupA, hk, Ne.symm hk]
      · simp only [addToSet, if_neg hk]
        simp only [lookupA, if_neg (Ne.symm hf)]
        rw [ih]
        have hLL : lookupList ((k₀, l₀) :: t) k = lookupList t k := by
          simp [lookupList, lookupA, hk]
        rw [hLL]

theorem mem_lookupList_addToSet {m : List (Str × List Str)} {k v f e : Str} :
    e ∈ lookupList (addToSet m k v) f ↔ e ∈ lookupList m f ∨ (f = k ∧ e = v) := by
  by_cases h : f = k
  · subst h
    show e ∈ (lookupA (addToSet m f v) f).getD [] ↔ _
    rw [lookupA_addToSet, if_pos rfl, Option.getD_some]
    by_cases hv : v ∈ lookupList m f
    · rw [if_pos hv]
      constructor
      · intro he; exact Or.inl he
      · intro he
        rcases he with he | he
        · exact he
        · exact he.2 ▸ hv
    · rw [if_neg hv]
      rw [List.mem_append, List.mem_singleton]
      constructor
      · intro he
        rcases he with he | he
        · exact Or.inl he
        · exact Or.inr ⟨rfl, he⟩
      · intro he
        rcases he with he | he
        · exact Or.inl he
        · exact Or.inr he.2
  · show e ∈ (lookupA (addToSet m k v) f).getD [] ↔ _
    rw [lookupA_addToSet, if_neg h]
    simp [lookupList, h]

theorem mem_keysOf_addToSet {m : List (Str × List Str)} {k v x : Str} :
    x ∈ keysOf (addToSet m k v) ↔ x ∈ keysOf m ∨ x = k := by
  induction m with
  | nil => simp [addToSet, keysOf]
  | cons p t ih =>
    obtain ⟨k₀, l₀⟩ := p
    by_cases hk : k₀ = k
    · subst hk
      simp [addToSet, keysOf]
      tauto
    · simp only [addToSet, if_neg hk, keysOf, List.map_cons, List.mem_cons]
      simp only [keysOf] at ih
      rw [ih]
      tauto

theorem nodup_keysOf_addToSet {m : List (Str × List Str)} {k v : Str}
    (h : (keysOf m).Nodup) : (keysOf (addToSet m k v)).Nodup := by
  induction m with
  | nil => simp [addToSet, keysOf]
  | cons p t ih =>
    obtain ⟨k₀, l₀⟩ := p
    simp only [keysOf, List.map_cons, List.nodup_cons] at h
    by_cases hk : k₀ = k
    · subst hk
      have hstep : addToSet ((k₀, l₀) :: t) k₀ v =
          (k₀, if v ∈ l₀ then l₀ else l₀ ++ [v]) :: t := by
        simp [addToSet]
      rw [hstep]
      simp only [keysOf, List.map_cons, List.nodup_cons]
      exact ⟨h.1, h.2⟩
    · simp only [addToSet, if_neg hk]
      simp only [keysOf, List.map_cons, List.nodup_cons]
      refine ⟨?_, ih h.2⟩
      intro hmem
      rcases mem_keysOf_addToSet.mp hmem with hmem | hmem
      · exact h.1 hmem
      · exact hk hmem

theorem nodup_lookupList_addToSet {m : List (Str × List Str)} {k v : Str}
    (h : ∀ x, (lookupList m x).Nodup) (f : Str) :
    (lookupList (addToSet m k v) f).Nodup := by
  show ((lookupA (addToSet m k v) f).getD []).Nodup
  rw [lookupA_addToSet]
  by_cases hf : f = k
  · rw [if_pos hf, Option.getD_some]
    by_cases hv : v ∈ lookupList m k
    · rw [if_pos hv]; exact h k
    · rw [if_neg hv]
      rw [List.nodup_append]
      exact ⟨h k, List.nodup_singleton v, by simpa using hv⟩
  · rw [if_neg hf]
    exact h f

theorem mem_lookupList_iff_exists {m : List (Str × List Str)} {f e : Str}
    (h : (keysOf m).Nodup) :
    e ∈ lookupList m f ↔ ∃ p ∈ m, p.1 = f ∧ e ∈ p.2 := by
  induction m with
  | nil => simp [lookupList, lookupA]
  | cons p t ih =>
    obtain ⟨k₀, l₀⟩ := p
    simp only [keysOf, List.map_cons, List.nodup_cons] at h
    by_cases hf : k₀ = f
    · subst hf
      simp only [lookupList, lookupA, if_pos rfl, Option.getD_some]
      constructor
      · intro he
        refine ⟨(k₀, l₀), List.mem_cons_self _ _, rfl, he⟩
      · intro hex
        obtain ⟨q, hq, hq1, hq2⟩ := hex
        rcases List.mem_cons.mp hq with hq | hq
        · rw [hq] at hq2; exact hq2
        · exfalso
          apply h.1
          rw [← hq1]
          exact List.mem_map_of_mem Prod.fst hq
    · have hstep : lookupList ((k₀, l₀) :: t) f = lookupList t f := by
        simp [lookupList, lookupA, hf]
      rw [hstep, ih h.2]
      constructor
      · intro hex
        obtain ⟨q, hq, hq1, hq2⟩ := hex
        exact ⟨q, List.mem_cons_of_mem _ hq, hq1, hq2⟩
      · intro hex
        obtain ⟨q, hq, hq1, hq2⟩ := hex
        rcases List.mem_cons.mp hq with hq | hq
        · subst hq; exact absurd hq1 hf
        · exact ⟨q, hq, hq1, hq2⟩

theorem lookupA_mapValues (g : List Str → List Str) (m : List (Str × List Str))
    (k : Str) :
    lookupA (m.map (fun p => (p.1, g p.2))) k = (lookupA m k).map g := by
  induction m with
  | nil => simp [lookupA]
  | cons p t ih =>
    obtain ⟨k₀, l₀⟩ := p
    by_cases h : k₀ = k
    · subst h; simp [lookupA]
    · simp [lookupA, h, ih]

theorem keysOf_mapValues (g : List Str → List Str) (m : List (Str × List Str)) :
    keysOf (m.map (fun p => (p.1, g p.2))) = keysOf m := by
  induction m with
  | nil => rfl
  | cons p t ih => simp [keysOf] at ih ⊢

/-! ## Fold lemmas for the reverse map built at export time -/

theorem mem_lookupList_foldAdd (es : List Str) (fp : Str)
    (acc : List (Str × List Str)) (f e : Str) :
    f ∈ lookupList (es.foldl (fun a x => addToSet a x fp) acc) e ↔
      f ∈ lookupList acc e ∨ (e ∈ es ∧ f = fp) := by
  induction es generalizing acc with
  | nil => simp
  | cons x xs ih =>
    simp only [List.foldl_cons]
    rw [ih, mem_lookupList_addToSet]
    simp only [List.mem_cons]
    tauto

theorem mem_keysOf_foldAdd (es : List Str) (fp : Str)
    (acc : List (Str × List Str)) (x : Str) :
    x ∈ keysOf (es.foldl (fun a y => addToSet a y fp) acc) ↔
      x ∈ keysOf acc ∨ x ∈ es := by
  induction es generalizing acc with
  | nil => simp
  | cons y ys ih =>
    simp only [List.foldl_cons]
    rw [ih]
    rw [mem_keysOf_addToSet]
    simp only [List.mem_cons]
    tauto

theorem nodup_keysOf_foldAdd (es : List Str) (fp : Str)
    (acc : List (Str × List Str)) (h : (keysOf acc).Nodup) :
    (keysOf (es.foldl (fun a y => addToSet a y fp) acc)).Nodup := by
  induction es generalizing acc with
  | nil => exact h
  | cons y ys ih =>
    simp only [List.foldl_cons]
    exact ih _ (nodup_keysOf_addToSet h)

theorem nodup_lookupList_foldAdd (es : List Str) (fp : Str)
    (acc : List (Str × List Str)) (h : ∀ x, (lookupList acc x).Nodup) :
    ∀ x, (lookupList (es.foldl (fun a y => addToSet a y fp) acc) x).Nodup := by
  induction es generalizing acc with
  | nil => exact h
  | cons y ys ih =>
    simp only [List.foldl_cons]
    exact ih _ (nodup_lookupList_addToSet h)

theorem mem_lookupList_exeFold (m : List (Str × List Str))
    (acc : List (Str × List Str)) (f e : Str) :
    f ∈ lookupList
        (m.foldl (fun a p => p.2.foldl (fun a2 x => addToSet a2 x p.1) a) acc) e ↔
      f ∈ lookupList acc e ∨ ∃ p ∈ m, p.1 = f ∧ e ∈ p.2 := by
  induction m generalizing acc with
  | nil => simp
  | cons q t ih =>
    simp only [List.foldl_cons]
    rw [ih, mem_lookupList_foldAdd]
    simp only [List.mem_cons]
    constructor
    · intro hh
      rcases hh with (hh | ⟨hh1, hh2⟩) | ⟨p, hp, hp1, hp2⟩
      · exact Or.inl hh
      · exact Or.inr ⟨q, Or.inl rfl, hh2.symm, hh1⟩
      · exact Or.inr ⟨p, Or.inr hp, hp1, hp2⟩
    · intro hh
      rcases hh with hh | ⟨p, hp | hp, hp1, hp2⟩
      · exact Or.inl (Or.inl hh)
      · subst hp
        exact Or.inl (Or.inr ⟨hp2, hp1.symm⟩)
      · exact Or.inr ⟨p, hp, hp1, hp2⟩

theorem mem_lookupList_exeToFilesOf (m : List (Str × List Str)) (f e : Str) :
    f ∈ lookupList (exeToFilesOf m) e ↔ ∃ p ∈ m, p.1 = f ∧ e ∈ p.2 := by
  have h := mem_lookupList_exeFold m [] f e
  simpa [exeToFilesOf, lookupList, lookupA] using h

theorem mem_keysOf_exeFold (m : List (Str × List Str))
    (acc : List (Str × List Str)) (e : Str) :
    e ∈ keysOf
        (m.foldl (fun a p => p.2.foldl (fun a2 x => addToSet a2 x p.1) a) acc) ↔
      e ∈ keysOf acc ∨ ∃ p ∈ m, e ∈ p.2 := by
  induction m generalizing acc with
  | nil => simp
  | cons q t ih =>
    simp only [List.foldl_cons]
    rw [ih, mem_keysOf_foldAdd]
    simp only [List.mem_cons]
    constructor
    · intro hh
      rcases hh with (hh | hh) | ⟨p, hp, hp2⟩
      · exact Or.inl hh
      · exact Or.inr ⟨q, Or.inl rfl, hh⟩
      · exact Or.inr ⟨p, Or.inr hp, hp2⟩
    · intro hh
      rcases hh with hh | ⟨p, hp | hp, hp2⟩
      · exact Or.inl (Or.inl hh)
      · subst hp; exact Or.inl (Or.inr hp2)
      · exact Or.inr ⟨p, hp, hp2⟩

theorem mem_keysOf_exeToFilesOf (m : List (Str × List Str)) (e : Str) :
    e ∈ keysOf (exeToFilesOf m) ↔ ∃ p ∈ m, e ∈ p.2 := by
  have h := mem_keysOf_exeFold m [] e
  simpa [exeToFilesOf, keysOf] using h

theorem nodup_keysOf_exeToFilesOf (m : List (Str × List Str)) :
    (keysOf (exeToFilesOf m)).Nodup := by
  have hgen : ∀ (mm acc : List (Str × List Str)), (keysOf acc).Nodup →
      (keysOf
        (mm.foldl (fun a p => p.2.foldl (fun a2 x => addToSet a2 x p.1) a) acc)).Nodup := by
    intro mm
    induction mm with
    | nil => intro acc h; exact h
    | cons q t ih =>
      intro acc h
      simp only [List.foldl_cons]
      exact ih _ (nodup_keysOf_foldAdd _ _ _ h)
  exact hgen m [] (by simp [keysOf])

theorem nodup_lookupList_exeToFilesOf (m : List (Str × List Str)) (e : Str) :
    (lookupList (exeToFilesOf m) e).Nodup := by
  have hgen : ∀ (mm acc : List (Str × List Str)), (∀ x, (lookupList acc x).Nodup) →
      ∀ x, (lookupList
        (mm.foldl (fun a p => p.2.foldl (fun a2 y => addToSet a2 y p.1) a) acc) x).Nodup := by
    intro mm
    induction mm with
    | nil => intro acc h; exact h
    | cons q t ih =>
      intro acc h
      simp only [List.foldl_cons]
      exact ih _ (nodup_lookupList_foldAdd _ _ _ h)
  exact hgen m [] (by intro x; simp [lookupList, lookupA]) e

/-! ## Fold lemmas for the reverse-index builder -/

theorem mem_lookupList_depsFold (deps : List Str) (ex : Str)
    (acc : List (Str × List Str)) (f e : Str) :
    e ∈ lookupList
        (deps.foldl (fun a d => if is_project_file d then addToSet a d ex else a) acc) f ↔
      e ∈ lookupList acc f ∨ (f ∈ deps ∧ is_project_file f = true ∧ e = ex) := by
  induction deps generalizing acc with
  | nil => simp
  | cons d ds ih =>
    simp only [List.foldl_cons]
    rw [ih]
    by_cases hd : is_project_file d
    · rw [if_pos hd, mem_lookupList_addToSet]
      simp only [List.mem_cons]
      constructor
      · intro hh
        rcases hh with (hh | ⟨hh1, hh2⟩) | ⟨hh1, hh2, hh3⟩
        · exact Or.inl hh
        · exact Or.inr ⟨Or.inl hh1, hh1 ▸ hd, hh2⟩
        · exact Or.inr ⟨Or.inr hh1, hh2, hh3⟩
      · intro hh
        rcases hh with hh | ⟨hh1 | hh1, hh2, hh3⟩
        · exact Or.inl (Or.inl hh)
        · exact Or.inl (Or.inr ⟨hh1, hh3⟩)
        · exact Or.inr ⟨hh1, hh2, hh3⟩
    · rw [if_neg hd]
      simp only [List.mem_cons]
      constructor
      · intro hh
        rcases hh with hh | ⟨hh1, hh2, hh3⟩
        · exact Or.inl hh
        · exact Or.inr ⟨Or.inr hh1, hh2, hh3⟩
      · intro hh
        rcases hh with hh | ⟨hh1 | hh1, hh2, hh3⟩
        · exact Or.inl hh
        · exact absurd (hh1 ▸ hh2) hd
        · exact Or.inr ⟨hh1, hh2, hh3⟩

theorem mem_lookupList_objsFold (objs : List Str) (ex : Str)
    (D : List (Str × List Str)) (acc : List (Str × List Str)) (f e : Str) :
    e ∈ lookupList
        (objs.foldl (fun a o =>
          match lookupA D o with
          | some deps => deps.foldl
              (fun a2 d => if is_project_file d then addToSet a2 d ex else a2) a
          | none => a) acc) f ↔
      e ∈ lookupList acc f ∨
        (∃ o ∈ objs, ∃ ds, lookupA D o = some ds ∧ f ∈ ds) ∧
          is_project_file f = true ∧ e = ex := by
  induction objs generalizing acc with
  | nil => simp
  | cons o os ih =>
    simp only [List.foldl_cons]
    rw [ih]
    rcases hD : lookupA D o with _ | ds
    · simp only [hD]
      simp only [List.mem_cons]
      constructor
      · intro hh
        rcases hh with hh | ⟨⟨o', ho', hds⟩, hh2, hh3⟩
        · exact Or.inl hh
        · exact Or.inr ⟨⟨o', Or.inr ho', hds⟩, hh2, hh3⟩
      · intro hh
        rcases hh with hh | ⟨⟨o', ho' | ho', hds⟩, hh2, hh3⟩
        · exact Or.inl hh
        · subst ho'
          obtain ⟨ds', hds', hmem⟩ := hds
          rw [hD] at hds'
          exact absurd hds' (by simp)
        · exact Or.inr ⟨⟨o', ho', hds⟩, hh2, hh3⟩
    · simp only [hD]
      rw [mem_lookupList_depsFold]
      simp only [List.mem_cons]
      constructor
      · intro hh
        rcases hh with (hh | ⟨hh1, hh2, hh3⟩) | ⟨⟨o', ho', hds⟩, hh2, hh3⟩
        · exact Or.inl hh
        · exact Or.inr ⟨⟨o, Or.inl rfl, ds, hD, hh1⟩, hh2, hh3⟩
        · exact Or.inr ⟨⟨o', Or.inr ho', hds⟩, hh2, hh3⟩
      · intro hh
        rcases hh with hh | ⟨⟨o', ho' | ho', hds⟩, hh2, hh3⟩
        · exact Or.inl (Or.inl hh)
        · subst ho'
          obtain ⟨ds', hds', hmem⟩ := hds
          rw [hD] at hds'
          obtain rfl : ds = ds' := by injection hds'
          exact Or.inl (Or.inr ⟨hmem, hh2, hh3⟩)
        · exact Or.inr ⟨⟨o', ho', hds⟩, hh2, hh3⟩

theorem mem_lookupList_buildMapping (A D : List (Str × List Str)) (f e : Str) :
    e ∈ lookupList (build_file_to_executable_mapping A D) f ↔
      ∃ p ∈ A, p.1 = e ∧ ∃ o ∈ p.2, ∃ ds, lookupA D o = some ds ∧ f ∈ ds ∧
        is_project_file f = true := by
  have hgen : ∀ (mm : List (Str × List Str)) (acc : List (Str × List Str)),
      e ∈ lookupList
        (mm.foldl (fun ftoe p =>
          p.2.foldl (fun ftoe2 objFile =>
            match lookupA D objFile with
            | some deps => deps.foldl (fun ftoe3 depFile =>
                if is_project_file depFile then addToSet ftoe3 depFile p.1 else ftoe3) ftoe2
            | none => ftoe2) ftoe) acc) f ↔
        e ∈ lookupList acc f ∨
          ∃ p ∈ mm, p.1 = e ∧ ∃ o ∈ p.2, ∃ ds, lookupA D o = some ds ∧ f ∈ ds ∧
            is_project_file f = true := by
    intro mm
    induction mm with
    | nil => intro acc; simp
    | cons q t ih =>
      intro acc
      simp only [List.foldl_cons]
      rw [ih, mem_lookupList_objsFold]
      simp only [List.mem_cons]
      constructor
      · intro hh
        rcases hh with (hh | ⟨⟨o, ho, ds, hds, hmem⟩, hproj, hex⟩) | ⟨p, hp, hp1, hrest⟩
        · exact Or.inl hh
        · exact Or.inr ⟨q, Or.inl rfl, hex.symm, o, ho, ds, hds, hmem, hproj⟩
        · exact Or.inr ⟨p, Or.inr hp, hp1, hrest⟩
      · intro hh
        rcases hh with hh | ⟨p, hp | hp, hp1, o, ho, ds, hds, hmem, hproj⟩
        · exact Or.inl (Or.inl hh)
        · subst hp
          exact Or.inl (Or.inr ⟨⟨o, ho, ds, hds, hmem⟩, hproj, hp1.symm⟩)
        · exact Or.inr ⟨p, hp, hp1, o, ho, ds, hds, hmem, hproj⟩
  have h := hgen A []
  simpa [build_file_to_executable_mapping, lookupList, lookupA] using h

/-! ## Fold lemmas for `select_tests` -/

theorem mem_setInsert {l : List Str} {v e : Str} :
    e ∈ setInsert l v ↔ e ∈ l ∨ e = v := by
  by_cases h : v ∈ l
  · simp only [setInsert, if_pos h]
    constructor
    · intro he; exact Or.inl he
    · intro he
      rcases he with he | he
      · exact he
      · exact he ▸ h
  · simp [setInsert, if_neg h]

theorem nodup_setInsert {l : List Str} {v : Str} (h : l.Nodup) :
    (setInsert l v).Nodup := by
  by_cases hv : v ∈ l
  · simpa [setInsert, if_pos hv] using h
  · simp only [setInsert, if_neg hv]
    rw [List.nodup_append]
    exact ⟨h, List.nodup_singleton v, by simpa using hv⟩

theorem mem_selectFoldInner (exes : List Str) (mode : Str) (acc : List Str) (e : Str) :
    e ∈ exes.foldl (fun a x => if filterOk mode x then setInsert a x else a) acc ↔
      e ∈ acc ∨ (e ∈ exes ∧ filterOk mode e = true) := by
  induction exes generalizing acc with
  | nil => simp
  | cons x xs ih =>
    simp only [List.foldl_cons]
    rw [ih]
    by_cases hx : filterOk mode x
    · rw [if_pos hx]
      rw [mem_setInsert]
      simp only [List.mem_cons]
      constructor
      · intro hh
        rcases hh with (hh | hh) | ⟨hh1, hh2⟩
        · exact Or.inl hh
        · exact Or.inr ⟨Or.inl hh, hh ▸ hx⟩
        · exact Or.inr ⟨Or.inr hh1, hh2⟩
      · intro hh
        rcases hh with hh | ⟨hh1 | hh1, hh2⟩
        · exact Or.inl (Or.inl hh)
        · exact Or.inl (Or.inr hh1)
        · exact Or.inr ⟨hh1, hh2⟩
    · rw [if_neg hx]
      simp only [List.mem_cons]
      constructor
      · intro hh
        rcases hh with hh | ⟨hh1, hh2⟩
        · exact Or.inl hh
        · exact Or.inr ⟨Or.inr hh1, hh2⟩
      · intro hh
        rcases hh with hh | ⟨hh1 | hh1, hh2⟩
        · exact Or.inl hh
        · exact absurd (hh1 ▸ hh2) hx
        · exact Or.inr ⟨hh1, hh2⟩

theorem nodup_selectFoldInner (exes : List Str) (mode : Str) (acc : List Str)
    (h : acc.Nodup) :
    (exes.foldl (fun a x => if filterOk mode x then setInsert a x else a) acc).Nodup := by
  induction exes generalizing acc with
  | nil => exact h
  | cons x xs ih =>
    simp only [List.foldl_cons]
    by_cases hx : filterOk mode x
    · rw [if_pos hx]; exact ih _ (nodup_setInsert h)
    · rw [if_neg hx]; exact ih _ h

theorem mem_selectFold (m : List (Str × List Str)) (changed : List Str) (mode : Str)
    (acc : List Str) (e : Str) :
    e ∈ changed.foldl (fun a f =>
        match lookupA m f with
        | some exes => exes.foldl (fun a2 x => if filterOk mode x then setInsert a2 x else a2) a
        | none => a) acc ↔
      e ∈ acc ∨ ∃ f ∈ changed, ∃ exes, lookupA m f = some exes ∧ e ∈ exes ∧
        filterOk mode e = true := by
  induction changed generalizing acc with
  | nil => simp
  | cons f fs ih =>
    simp only [List.foldl_cons]
    rw [ih]
    rcases hL : lookupA m f with _ | exes
    · simp only [hL]
      simp only [List.mem_cons]
      constructor
      · intro hh
        rcases hh with hh | ⟨f', hf', hrest⟩
        · exact Or.inl hh
        · exact Or.inr ⟨f', Or.inr hf', hrest⟩
      · intro hh
        rcases hh with hh | ⟨f', hf' | hf', exes, hx, hrest⟩
        · exact Or.inl hh
        · subst hf'; rw [hL] at hx; exact absurd hx (by simp)
        · exact Or.inr ⟨f', hf', exes, hx, hrest⟩
    · simp only [hL]
      rw [mem_selectFoldInner]
      simp only [List.mem_cons]
      constructor
      · intro hh
        rcases hh with (hh | ⟨hh1, hh2⟩) | ⟨f', hf', hrest⟩
        · exact Or.inl hh
        · exact Or.inr ⟨f, Or.inl rfl, exes, hL, hh1, hh2⟩
        · exact Or.inr ⟨f', Or.inr hf', hrest⟩
      · intro hh
        rcases hh with hh | ⟨f', hf' | hf', exes', hx, hm, hfo⟩
        · exact Or.inl (Or.inl hh)
        · subst hf'
          rw [hL] at hx
          obtain rfl : exes = exes' := by injection hx
          exact Or.inl (Or.inr ⟨hm, hfo⟩)
        · exact Or.inr ⟨f', hf', exes', hx, hm, hfo⟩

theorem nodup_selectFold (m : List (Str × List Str)) (changed : List Str) (mode : Str)
    (acc : List Str) (h : acc.Nodup) :
    (changed.foldl (fun a f =>
        match lookupA m f with
        | some exes => exes.foldl (fun a2 x => if filterOk mode x then setInsert a2 x else a2) a
        | none => a) acc).Nodup := by
  induction changed generalizing acc with
  | nil => exact h
  | cons f fs ih =>
    simp only [List.foldl_cons]
    rcases hL : lookupA m f with _ | exes
    · simp only [hL]; exact ih _ h
    · simp only [hL]; exact ih _ (nodup_selectFoldInner _ _ _ h)

/-! ## Lemmas about `multisetEqB` and `valuePermEq` -/

theorem countStr_eq_zero {x : Str} {l : List Str} (h : x ∉ l) : countStr x l = 0 := by
  induction l with
  | nil => rfl
  | cons y t ih =>
    simp only [List.mem_cons, not_or] at h
    show (if y = x then 1 else 0) + countStr x t = 0
    rw [if_neg (fun hh => h.1 hh.symm), ih h.2]

theorem countStr_pos_iff_mem {x : Str} {l : List Str} :
    0 < countStr x l ↔ x ∈ l := by
  induction l with
  | nil => simp [countStr]
  | cons y t ih =>
    show 0 < (if y = x then 1 else 0) + countStr x t ↔ _
    by_cases h : y = x
    · simp [h]
    · simp only [if_neg h, Nat.zero_add, ih, List.mem_cons]
      constructor
      · intro hh; exact Or.inr hh
      · intro hh
        rcases hh with hh | hh
        · exact absurd hh.symm h
        · exact hh

theorem countStr_perm {l₁ l₂ : List Str} (h : List.Perm l₁ l₂) (a : Str) :
    countStr a l₁ = countStr a l₂ := by
  induction h with
  | nil => rfl
  | cons x _ ih => show _ + _ = _ + _; rw [ih]
  | swap x y l =>
    show (if y = a then 1 else 0) + ((if x = a then 1 else 0) + countStr a l) =
      (if x = a then 1 else 0) + ((if y = a then 1 else 0) + countStr a l)
    omega
  | trans _ _ ih₁ ih₂ => exact ih₁.trans ih₂

/-- Remove the first occurrence of a string. -/
def eraseStr (x : Str) : List Str → List Str
  | [] => []
  | y :: t => if y = x then t else y :: eraseStr x t

theorem perm_cons_eraseStr {x : Str} {l : List Str} (h : x ∈ l) :
    List.Perm l (x :: eraseStr x l) := by
  induction l with
  | nil => cases h
  | cons y t ih =>
    by_cases hy : y = x
    · subst hy
      show List.Perm (y :: t) (y :: eraseStr y (y :: t))
      have : eraseStr y (y :: t) = t := by simp [eraseStr]
      rw [this]
    · have hx : x ∈ t := by
        rcases List.mem_cons.mp h with hh | hh
        · exact absurd hh.symm hy
        · exact hh
      have h1 : List.Perm (y :: t) (y :: x :: eraseStr x t) := (ih hx).cons y
      have h2 : List.Perm (y :: x :: eraseStr x t) (x :: y :: eraseStr x t) :=
        List.Perm.swap x y _
      have h3 : eraseStr x (y :: t) = y :: eraseStr x t := by simp [eraseStr, hy]
      rw [h3]
      exact h1.trans h2

theorem perm_of_countStr_eq {l₁ l₂ : List Str}
    (h : ∀ a, countStr a l₁ = countStr a l₂) : List.Perm l₁ l₂ := by
  induction l₁ generalizing l₂ with
  | nil =>
    cases l₂ with
    | nil => exact List.Perm.refl _
    | cons y t =>
      exfalso
      have h1 := h y
      have h2 : 0 < countStr y (y :: t) := countStr_pos_iff_mem.mpr (List.mem_cons_self y t)
      rw [← h1] at h2
      simp [countStr] at h2
  | cons x t ih =>
    have hx : x ∈ l₂ := by
      apply countStr_pos_iff_mem.mp
      rw [← h x]
      apply countStr_pos_iff_mem.mpr
      exact List.mem_cons_self x t
    have hperm := perm_cons_eraseStr hx
    have ht : ∀ a, countStr a t = countStr a (eraseStr x l₂) := by
      intro a
      have h1 := h a
      have h2 := countStr_perm hperm a
      rw [h2] at h1
      show countStr a t = _
      have h3 : countStr a (x :: t) = (if x = a then 1 else 0) + countStr a t := rfl
      have h4 : countStr a (x :: eraseStr x l₂) =
          (if x = a then 1 else 0) + countStr a (eraseStr x l₂) := rfl
      rw [h3, h4] at h1
      omega
    exact ((ih ht).cons x).trans hperm.symm

theorem multisetEqB_iff {l₁ l₂ : List Str} :
    multisetEqB l₁ l₂ = true ↔ List.Perm l₁ l₂ := by
  constructor
  · intro h
    simp only [multisetEqB, Bool.and_eq_true, List.all_eq_true, decide_eq_true_eq] at h
    apply perm_of_countStr_eq
    intro a
    by_cases h₁ : a ∈ l₁
    · exact h.1 a h₁
    · by_cases h₂ : a ∈ l₂
      · exact h.2 a h₂
      · rw [countStr_eq_zero h₁, countStr_eq_zero h₂]
  · intro h
    simp only [multisetEqB, Bool.and_eq_true, List.all_eq_true, decide_eq_true_eq]
    exact ⟨fun a _ => countStr_perm h a, fun a _ => countStr_perm h a⟩

theorem valuePermEq_keysOf {m₁ m₂ : List (Str × List Str)}
    (h : valuePermEq m₁ m₂ = true) : keysOf m₁ = keysOf m₂ := by
  induction m₁ generalizing m₂ with
  | nil => cases m₂ with
    | nil => rfl
    | cons q u => simp [valuePermEq] at h
  | cons p t ih =>
    cases m₂ with
    | nil => simp [valuePermEq] at h
    | cons q u =>
      simp only [valuePermEq, Bool.and_eq_true, decide_eq_true_eq] at h
      simp only [keysOf, List.map_cons]
      rw [h.1.1]
      congr 1
      exact ih h.2

theorem valuePermEq_length {m₁ m₂ : List (Str × List Str)}
    (h : valuePermEq m₁ m₂ = true) : m₁.length = m₂.length := by
  have := valuePermEq_keysOf h
  have h₁ : m₁.length = (keysOf m₁).length := by simp [keysOf]
  have h₂ : m₂.length = (keysOf m₂).length := by simp [keysOf]
  rw [h₁, h₂, this]

theorem valuePermEq_lookupList_perm {m₁ m₂ : List (Str × List Str)}
    (h : valuePermEq m₁ m₂ = true) (k : Str) :
    List.Perm (lookupList m₁ k) (lookupList m₂ k) := by
  induction m₁ generalizing m₂ with
  | nil => cases m₂ with
    | nil => exact List.Perm.refl _
    | cons q u => simp [valuePermEq] at h
  | cons p t ih =>
    cases m₂ with
    | nil => simp [valuePermEq] at h
    | cons q u =>
      simp only [valuePermEq, Bool.and_eq_true, decide_eq_true_eq] at h
      obtain ⟨⟨hkey, hperm⟩, hrest⟩ := h
      by_cases hk : p.1 = k
      · have h₁ : lookupList (p :: t) k = p.2 := by
          simp [lookupList, lookupA, hk]
        have h₂ : lookupList (q :: u) k = q.2 := by
          simp [lookupList, lookupA, hkey ▸ hk]
        rw [h₁, h₂]
        exact multisetEqB_iff.mp hperm
      · have h₁ : lookupList (p :: t) k = lookupList t k := by
          simp [lookupList, lookupA, hk]
        have h₂ : lookupList (q :: u) k = lookupList u k := by
          simp [lookupList, lookupA, hkey ▸ hk]
        rw [h₁, h₂]
        exact ih hrest

theorem valuePermEq_filter_length {m₁ m₂ : List (Str × List Str)}
    (h : valuePermEq m₁ m₂ = true) :
    (m₁.filter (fun p => 1 < p.2.length)).length =
      (m₂.filter (fun p => 1 < p.2.length)).length := by
  induction m₁ generalizing m₂ with
  | nil => cases m₂ with
    | nil => rfl
    | cons q u => simp [valuePermEq] at h
  | cons p t ih =>
    cases m₂ with
    | nil => simp [valuePermEq] at h
    | cons q u =>
      simp only [valuePermEq, Bool.and_eq_true, decide_eq_true_eq] at h
      obtain ⟨⟨hkey, hperm⟩, hrest⟩ := h
      have hlen : p.2.length = q.2.length := (multisetEqB_iff.mp hperm).length_eq
      by_cases hp : 1 < p.2.length
      · rw [List.filter_cons_of_pos (by simpa using hp),
          List.filter_cons_of_pos (by simp [← hlen]; exact hp)]
        simp only [List.length_cons]
        rw [ih hrest]
      · rw [List.filter_cons_of_neg (by simpa using hp),
          List.filter_cons_of_neg (by simp [← hlen]; exact Nat.not_lt.mp hp)]
        exact ih hrest

theorem valuePermEq_exists_iff {m₁ m₂ : List (Str × List Str)}
    (h : valuePermEq m₁ m₂ = true) (f e : Str) :
    (∃ p ∈ m₁, p.1 = f ∧ e ∈ p.2) ↔ (∃ p ∈ m₂, p.1 = f ∧ e ∈ p.2) := by
  induction m₁ generalizing m₂ with
  | nil => cases m₂ with
    | nil => exact Iff.rfl
    | cons q u => simp [valuePermEq] at h
  | cons p t ih =>
    cases m₂ with
    | nil => simp [valuePermEq] at h
    | cons q u =>
      simp only [valuePermEq, Bool.and_eq_true, decide_eq_true_eq] at h
      obtain ⟨⟨hkey, hperm⟩, hrest⟩ := h
      have hpq : List.Perm p.2 q.2 := multisetEqB_iff.mp hperm
      simp only [List.mem_cons]
      constructor
      · intro hh
        obtain ⟨r, hr | hr, hr1, hr2⟩ := hh
        · subst hr
          exact ⟨q, Or.inl rfl, hkey ▸ hr1, hpq.mem_iff.mp hr2⟩
        · obtain ⟨r', hr', hr1', hr2'⟩ := (ih hrest).mp ⟨r, hr, hr1, hr2⟩
          exact ⟨r', Or.inr hr', hr1', hr2'⟩
      · intro hh
        obtain ⟨r, hr | hr, hr1, hr2⟩ := hh
        · subst hr
          exact ⟨p, Or.inl rfl, hkey.symm ▸ hr1, hpq.mem_iff.mpr hr2⟩
        · obtain ⟨r', hr', hr1', hr2'⟩ := (ih hrest).mpr ⟨r, hr, hr1, hr2⟩
          exact ⟨r', Or.inr hr', hr1', hr2'⟩

theorem valuePermEq_exists_val_iff {m₁ m₂ : List (Str × List Str)}
    (h : valuePermEq m₁ m₂ = true) (e : Str) :
    (∃ p ∈ m₁, e ∈ p.2) ↔ (∃ p ∈ m₂, e ∈ p.2) := by
  induction m₁ generalizing m₂ with
  | nil => cases m₂ with
    | nil => exact Iff.rfl
    | cons q u => simp [valuePermEq] at h
  | cons p t ih =>
    cases m₂ with
    | nil => simp [valuePermEq] at h
    | cons q u =>
      simp only [valuePermEq, Bool.and_eq_true, decide_eq_true_eq] at h
      obtain ⟨⟨hkey, hperm⟩, hrest⟩ := h
      have hpq : List.Perm p.2 q.2 := multisetEqB_iff.mp hperm
      simp only [List.mem_cons]
      constructor
      · intro hh
        obtain ⟨r, hr | hr, hr2⟩ := hh
        · subst hr
          exact ⟨q, Or.inl rfl, hpq.mem_iff.mp hr2⟩
        · obtain ⟨r', hr', hr2'⟩ := (ih hrest).mp ⟨r, hr, hr2⟩
          exact ⟨r', Or.inr hr', hr2'⟩
      · intro hh
        obtain ⟨r, hr | hr, hr2⟩ := hh
        · subst hr
          exact ⟨p, Or.inl rfl, hpq.mem_iff.mpr hr2⟩
        · obtain ⟨r', hr', hr2'⟩ := (ih hrest).mpr ⟨r, hr, hr2⟩
          exact ⟨r', Or.inr hr', hr2'⟩

/-! ## Remaining bridge lemmas -/

theorem sortStr_idem (l : List Str) : sortStr (sortStr l) = sortStr l :=
  sortStr_eq_of_perm (sortStr_perm l)

theorem lookupList_mapSort (m : List (Str × List Str)) (k : Str) :
    lookupList (m.map (fun p => (p.1, sortStr p.2))) k = sortStr (lookupList m k) := by
  show (lookupA (m.map (fun p => (p.1, sortStr p.2))) k).getD [] = _
  rw [lookupA_mapValues]
  cases h : lookupA m k with
  | none => simp [lookupList, h]; rfl
  | some l => simp [lookupList, h]

theorem canonAssoc_eq {m₁ m₂ : List (Str × List Str)}
    (hk : List.Perm (keysOf m₁) (keysOf m₂))
    (hl : ∀ k, sortStr (lookupList m₁ k) = sortStr (lookupList m₂ k)) :
    canonAssoc m₁ = canonAssoc m₂ := by
  unfold canonAssoc
  rw [sortStr_eq_of_perm hk]
  have hf : (fun k => (k, sortStr (lookupList m₁ k))) =
      (fun k => (k, sortStr (lookupList m₂ k))) :=
    funext (fun k => by rw [hl k])
  rw [hf]

theorem lookupA_map_self (g : Str → List Str) (objs : List Str) (o : Str)
    (h : o ∈ objs) :
    lookupA (objs.map (fun x => (x, g x))) o = some (g o) := by
  induction objs with
  | nil => cases h
  | cons x t ih =>
    by_cases hx : x = o
    · subst hx; simp [lookupA]
    · rcases List.mem_cons.mp h with hh | hh
      · exact absurd hh.symm hx
      · simp only [List.map_cons, lookupA, if_neg hx]
        exact ih hh

theorem get_object_dependencies_of_failure {ws : Str} {r : InvocationResult}
    (h : isFailureRes r = true) : get_object_dependencies ws r = [] := by
  cases r with
  | timedOut => rfl
  | raised => rfl
  | exited rc out =>
    have hrc : rc ≠ 0 := by simpa [isFailureRes] using h
    simp [get_object_dependencies, hrc]

theorem depLoop_eq (pre : Str) (ls : List Str) :
    depLoop pre ls =
      ((ls.map pyStrip).filter
          (fun s => ¬ s.isEmpty ∧ ¬ ((strL "#").isPrefixOf s))).map
        (fun s => if pre.isPrefixOf s then s.drop pre.length else s) := by
  induction ls with
  | nil => rfl
  | cons l t ih =>
    simp only [depLoop, List.map_cons]
    by_cases h : ¬ (pyStrip l).isEmpty ∧ ¬ ((strL "#").isPrefixOf (pyStrip l))
    · rw [if_pos h, List.filter_cons_of_pos (by simpa using h), List.map_cons, ih]
    · rw [if_neg h, List.filter_cons_of_neg (by simpa using h), ih]

/-! ## Claim theorems -/

/-- C3: for every path string, `_is_project_file` evaluates its rules in fixed
priority order with first match winning: a path matching an include prefix is
classified true (include wins even over a simultaneous exclude match); a path
matching only an exclude prefix is classified false even when its extension is
in the source/header allow-list; a path matching no prefix is classified true
exactly when its extension is in the allow-list. -/
theorem c3_classifier_priority (p : Str) :
    (include_prefixes.any (fun pre => pre.isPrefixOf p) = true →
      is_project_file p = true) ∧
    (include_prefixes.any (fun pre => pre.isPrefixOf p) = false →
      exclude_prefixes.any (fun pre => pre.isPrefixOf p) = true →
      is_project_file p = false) ∧
    (include_prefixes.any (fun pre => pre.isPrefixOf p) = false →
      exclude_prefixes.any (fun pre => pre.isPrefixOf p) = false →
      is_project_file p = source_extensions.any (fun ext => ext.isSuffixOf p)) := by
  refine ⟨?_, ?_, ?_⟩
  · intro h1
    simp [is_project_file, h1]
  · intro h1 h2
    simp [is_project_file, h1, h2]
  · intro h1 h2
    simp only [is_project_file, h1, h2, Bool.false_eq_true, if_false]
    cases hext : source_extensions.any (fun ext => ext.isSuffixOf p) with
    | false => simp [hext]
    | true => simp [hext]

/-- Witness for C3 at concrete paths: an include-prefixed path without a
recognized extension is kept, an exclude-prefixed path with an allow-listed
extension is dropped, and a prefix-free path is classified by extension. -/
theorem c3_classifier_priority_witness :
    is_project_file (strL "include/weird.bin") = true ∧
    is_project_file (strL "/usr/lib/z.cpp") = false ∧
    is_project_file (strL "foo/bar.cpp") =
      source_extensions.any (fun ext => ext.isSuffixOf (strL "foo/bar.cpp")) := by
  refine ⟨?_, ?_, ?_⟩
  · exact (c3_classifier_priority (strL "include/weird.bin")).1 (by decide)
  · exact (c3_classifier_priority (strL "/usr/lib/z.cpp")).2.1 (by decide) (by decide)
  · exact (c3_classifier_priority (strL "foo/bar.cpp")).2.2 (by decide) (by decide)

/-- C4: parsing the three-line graph text with one executable rule and two
object rules yields exactly the stated `executable_to_objects` and
`object_to_source` maps. -/
theorem c4_parser_example :
    parse_build_file (strL "build bin/test_foo: LINK_EXECUTABLE obj/a.cpp.o obj/b.cpp.o\nbuild obj/a.cpp.o: CXX_COMPILER a.cpp\nbuild obj/b.cpp.o: CXX_COMPILER b.cpp") =
      ⟨[(strL "bin/test_foo", [strL "obj/a.cpp.o", strL "obj/b.cpp.o"])],
       [(strL "obj/a.cpp.o", strL "a.cpp"), (strL "obj/b.cpp.o", strL "b.cpp")]⟩ := by
  decide

/-- C5: a line with the executable-output shape is recorded in
`executable_to_objects` (with its collected object list) precisely when it is
tagged `EXECUTABLE` or its output name contains the `test_`/`example_` naming
convention; a shaped line failing the qualification test leaves
`executable_to_objects` unchanged. -/
theorem c5_executable_qualification (st : ParserState) (line name depsRegion : Str)
    (h : exeMatch line = some (name, depsRegion)) :
    (parse_build_line st line).executable_to_objects =
      (if isExeQualified line name then
        dictInsert st.executable_to_objects name (objectFilesOf depsRegion)
      else st.executable_to_objects) := by
  by_cases hq : isExeQualified line name
  · simp [parse_build_line, h, hq]
  · simp only [parse_build_line, h, Bool.not_eq_true] at *
    rw [if_neg (by simp [hq]), if_neg (by simp [hq])]
    cases hobj : objMatch line with
    | none => rfl
    | some pr => rfl

/-- Witness for C5: the qualifying line `build bin/test_q: CUSTOM a.o b.o` is
recorded, and the non-qualifying shaped line `build bin/libfoo: CUSTOM a.o b.o`
contributes nothing to `executable_to_objects`. -/
theorem c5_executable_qualification_witness :
    (parse_build_line ⟨[], []⟩ (strL "build bin/test_q: CUSTOM a.o b.o")).executable_to_objects =
      [(strL "bin/test_q", [strL "a.o", strL "b.o"])] ∧
    (parse_build_line ⟨[], []⟩ (strL "build bin/libfoo: CUSTOM a.o b.o")).executable_to_objects =
      [] := by
  constructor
  · exact (c5_executable_qualification ⟨[], []⟩ _ (strL "bin/test_q") (strL "a.o b.o")
      (by decide)).trans (by decide)
  · exact (c5_executable_qualification ⟨[], []⟩ _ (strL "bin/libfoo") (strL "a.o b.o")
      (by decide)).trans (by decide)

/-- C6 counterexample: the claim's verbatim-line transformation disagrees with
the code on an output whose lines carry surrounding whitespace — the code
strips each line before the blank/comment tests and before the prefix strip,
so `" # note"` is dropped and `"foo.h "` is recorded as `"foo.h"`, while the
claim's recipe keeps both verbatim. -/
theorem c6_counterexample :
    get_object_dependencies (strL "..")
        (.exited 0 (strL "hdr\n # note\nfoo.h ")) ≠
      specDepListing (strL "..") (strL "hdr\n # note\nfoo.h ") := by
  decide

/-- C6 amended: for every successful invocation, the parsed dependency list
equals the sequence obtained by taking the lines of the whitespace-stripped
stdout, discarding the first, whitespace-stripping each remaining line,
dropping those that are then empty or begin with `#`, stripping the
workspace-root prefix when present and keeping the result otherwise. -/
theorem c6_success_parse (ws out : Str) :
    get_object_dependencies ws (.exited 0 out) = amendedDepListing ws out := by
  show (if (0 : Int) ≠ 0 then []
        else depLoop (wsPrefOf ws) ((splitOnNl (pyStrip out)).drop 1)) = _
  rw [if_neg (by simp)]
  rw [depLoop_eq]
  rfl

/-- C7: an object whose invocation times out, raises, or exits non-zero gets
the empty dependency list, and the batch still records a result for every
object file submitted. -/
theorem c7_partial_failure_tolerance (run : Str → InvocationResult) (ws : Str)
    (objs : List Str) (o : Str) (ho : o ∈ objs) :
    lookupA (extract_object_dependencies run ws objs) o =
      some (get_object_dependencies ws (run o)) ∧
    (isFailureRes (run o) = true →
      lookupA (extract_object_dependencies run ws objs) o = some []) ∧
    (∀ o2 ∈ objs, ∃ ds, lookupA (extract_object_dependencies run ws objs) o2 = some ds) := by
  refine ⟨?_, ?_, ?_⟩
  · exact lookupA_map_self _ objs o ho
  · intro hfail
    show lookupA (objs.map (fun x => (x, get_object_dependencies ws (run x)))) o = some []
    rw [lookupA_map_self (fun x => get_object_dependencies ws (run x)) objs o ho,
      get_object_dependencies_of_failure hfail]
  · intro o2 ho2
    exact ⟨_, lookupA_map_self _ objs o2 ho2⟩

/-- Witness for C7: with `a.o` timing out and `b.o` succeeding, `a.o` is
recorded with an empty list and `b.o` with its parsed dependencies. -/
theorem c7_partial_failure_tolerance_witness :
    lookupA (extract_object_dependencies
        (fun o => if o = strL "a.o" then .timedOut else .exited 0 (strL "hdr\nx.h"))
        (strL "..") [strL "a.o", strL "b.o"]) (strL "a.o") = some [] ∧
    lookupA (extract_object_dependencies
        (fun o => if o = strL "a.o" then .timedOut else .exited 0 (strL "hdr\nx.h"))
        (strL "..") [strL "a.o", strL "b.o"]) (strL "b.o") = some [strL "x.h"] := by
  constructor
  · exact (c7_partial_failure_tolerance
      (fun o => if o = strL "a.o" then .timedOut else .exited 0 (strL "hdr\nx.h"))
      (strL "..") [strL "a.o", strL "b.o"] (strL "a.o") (by decide)).2.1 (by decide)
  · decide

/-- C8: if dependency extraction yields the empty list for object `O` while
every other object's list is unchanged, the resulting `file_to_executables`
membership is exactly the all-success membership restricted to witnesses other
than `O` — every `(file, executable)` entry not derived from `O`'s dependency
list is identical in both mappings, and nothing new appears. -/
theorem c8_partial_failure_isolation (A D Dfail : List (Str × List Str)) (O : Str)
    (hO : lookupA Dfail O = some [])
    (hrest : ∀ o, o ≠ O → lookupA Dfail o = lookupA D o) (f e : Str) :
    e ∈ lookupList (build_file_to_executable_mapping A Dfail) f ↔
      ∃ p ∈ A, p.1 = e ∧ ∃ o ∈ p.2, o ≠ O ∧ ∃ ds, lookupA D o = some ds ∧ f ∈ ds ∧
        is_project_file f = true := by
  rw [mem_lookupList_buildMapping]
  constructor
  · rintro ⟨p, hp, hp1, o, ho, ds, hds, hmem, hproj⟩
    by_cases hoO : o = O
    · subst hoO
      rw [hO] at hds
      obtain rfl : ([] : List Str) = ds := by injection hds
      cases hmem
    · refine ⟨p, hp, hp1, o, ho, hoO, ds, ?_, hmem, hproj⟩
      rw [← hrest o hoO]
      exact hds
  · rintro ⟨p, hp, hp1, o, ho, hoO, ds, hds, hmem, hproj⟩
    refine ⟨p, hp, hp1, o, ho, ds, ?_, hmem, hproj⟩
    rw [hrest o hoO]
    exact hds

/-- Witness for C8: with `o.o` shared by both executables failing, the entry
derived from `a.o` survives while the entry derived only from `o.o`
disappears. -/
theorem c8_partial_failure_isolation_witness :
    ((strL "bin/test_a") ∈ lookupList
        (build_file_to_executable_mapping
          [(strL "bin/test_a", [strL "a.o", strL "o.o"]), (strL "bin/test_b", [strL "o.o"])]
          [(strL "a.o", [strL "src/a.cpp"]), (strL "o.o", [])])
        (strL "include/h.hpp") ↔
      ∃ p ∈ [(strL "bin/test_a", [strL "a.o", strL "o.o"]),
             (strL "bin/test_b", [strL "o.o"])],
        p.1 = strL "bin/test_a" ∧ ∃ o ∈ p.2, o ≠ strL "o.o" ∧
          ∃ ds, lookupA [(strL "a.o", [strL "src/a.cpp"]),
                         (strL "o.o", [strL "include/h.hpp"])] o = some ds ∧
            strL "include/h.hpp" ∈ ds ∧ is_project_file (strL "include/h.hpp") = true) := by
  apply c8_partial_failure_isolation
  · decide
  · intro o ho
    simp only [lookupA]
    by_cases h1 : strL "a.o" = o
    · rw [if_pos h1, if_pos h1]
    · rw [if_neg h1, if_neg h1, if_neg (Ne.symm ho), if_neg (Ne.symm ho)]

/-- C9: `select_tests` returns the deduplicated, lexicographically sorted
union of the executable lists of the changed files present in the mapping
(filtered per executable), an absent changed file contributing nothing; and it
produces the three results of the spec's end-to-end example. -/
theorem c9_impact_query :
    (∀ (m : List (Str × List Str)) (changed : List Str) (mode e : Str),
      e ∈ select_tests m changed mode ↔
        ∃ f ∈ changed, ∃ exes, lookupA m f = some exes ∧ e ∈ exes ∧
          filterOk mode e = true) ∧
    (∀ (m : List (Str × List Str)) (changed : List Str) (mode : Str),
      List.Sorted (fun a b => strLe a b = true) (select_tests m changed mode)) ∧
    (∀ (m : List (Str × List Str)) (changed : List Str) (mode : Str),
      (select_tests m changed mode).Nodup) ∧
    select_tests
        [(strL "src/a.cpp", [strL "test_x", strL "test_y"]),
         (strL "include/b.hpp", [strL "test_x"])]
        [strL "include/b.hpp"] (strL "all") = [strL "test_x"] ∧
    select_tests
        [(strL "src/a.cpp", [strL "test_x", strL "test_y"]),
         (strL "include/b.hpp", [strL "test_x"])]
        [strL "src/a.cpp", strL "include/b.hpp"] (strL "test_prefix") =
      [strL "test_x", strL "test_y"] ∧
    select_tests
        [(strL "src/a.cpp", [strL "test_x", strL "test_y"]),
         (strL "include/b.hpp", [strL "test_x"])]
        [strL "README.md"] (strL "all") = [] := by
  refine ⟨?_, ?_, ?_, by decide, by decide, by decide⟩
  · intro m changed mode e
    show e ∈ sortStr _ ↔ _
    rw [mem_sortStr, mem_selectFold]
    simp [lookupList, lookupA]
  · intro m changed mode
    exact sortStr_sorted _
  · intro m changed mode
    exact sortStr_nodup (nodup_selectFold m changed mode [] List.nodup_nil)

/-- C1: in the exported JSON, for every file `f` and executable `e`, `e` is in
`file_to_executables[f]` exactly when `f` is in `executable_to_files[e]` — the
exported reverse map is the exact inverse of the exported forward map. -/
theorem c1_inverse_consistency (A : List (Str × List Str)) (OTS : List (Str × Str))
    (ftoe : List (Str × List Str)) (hnd : (keysOf ftoe).Nodup) (f e : Str) :
    e ∈ lookupList (export_to_json A OTS ftoe).fileToExecutables f ↔
      f ∈ lookupList (export_to_json A OTS ftoe).executableToFiles e := by
  show e ∈ lookupList ftoe f ↔
    f ∈ lookupList ((exeToFilesOf ftoe).map (fun p => (p.1, sortStr p.2))) e
  have hmem : f ∈ lookupList ((exeToFilesOf ftoe).map (fun p => (p.1, sortStr p.2))) e ↔
      f ∈ lookupList (exeToFilesOf ftoe) e := by
    rw [lookupList_mapSort, mem_sortStr]
  rw [hmem, mem_lookupList_exeToFilesOf, mem_lookupList_iff_exists hnd]

/-- Witness for C1 at a concrete two-file mapping sharing one executable. -/
theorem c1_inverse_consistency_witness :
    (strL "bin/t1") ∈ lookupList
        (export_to_json [] []
          [(strL "src/a.cpp", [strL "bin/t1", strL "bin/t2"]),
           (strL "include/b.hpp", [strL "bin/t1"])]).fileToExecutables
        (strL "include/b.hpp") ↔
      (strL "include/b.hpp") ∈ lookupList
        (export_to_json [] []
          [(strL "src/a.cpp", [strL "bin/t1", strL "bin/t2"]),
           (strL "include/b.hpp", [strL "bin/t1"])]).executableToFiles
        (strL "bin/t1") :=
  c1_inverse_consistency [] []
    [(strL "src/a.cpp", [strL "bin/t1", strL "bin/t2"]),
     (strL "include/b.hpp", [strL "bin/t1"])]
    (by decide) (strL "include/b.hpp") (strL "bin/t1")

/-- C10: the keys of the exported `executable_to_files` are exactly the
executables appearing in at least one file's set of `file_to_executables`,
while `statistics.total_executables` counts every executable parsed from the
build graph; on a concrete pipeline where one executable's only object
contributes no project-relevant dependency, the exported key count is strictly
smaller than `total_executables`. -/
theorem c10_executable_key_gap :
    (∀ (A : List (Str × List Str)) (OTS : List (Str × Str))
       (ftoe : List (Str × List Str)) (e : Str),
      e ∈ keysOf (export_to_json A OTS ftoe).executableToFiles ↔
        ∃ p ∈ (export_to_json A OTS ftoe).fileToExecutables, e ∈ p.2) ∧
    (∀ (A : List (Str × List Str)) (OTS : List (Str × Str))
       (ftoe : List (Str × List Str)),
      (export_to_json A OTS ftoe).totalExecutables = A.length) ∧
    ((export_to_json
        [(strL "bin/test_a", [strL "a.o"]), (strL "bin/test_b", [strL "b.o"])]
        [(strL "a.o", strL "a.cpp"), (strL "b.o", strL "b.cpp")]
        (build_file_to_executable_mapping
          [(strL "bin/test_a", [strL "a.o"]), (strL "bin/test_b", [strL "b.o"])]
          [(strL "a.o", [strL "src/x.cpp"]),
           (strL "b.o", [strL "/usr/sys.h"])])).executableToFiles.length <
      (export_to_json
        [(strL "bin/test_a", [strL "a.o"]), (strL "bin/test_b", [strL "b.o"])]
        [(strL "a.o", strL "a.cpp"), (strL "b.o", strL "b.cpp")]
        (build_file_to_executable_mapping
          [(strL "bin/test_a", [strL "a.o"]), (strL "bin/test_b", [strL "b.o"])]
          [(strL "a.o", [strL "src/x.cpp"]),
           (strL "b.o", [strL "/usr/sys.h"])])).totalExecutables) := by
  refine ⟨?_, ?_, by decide⟩
  · intro A OTS ftoe e
    show e ∈ keysOf ((exeToFilesOf ftoe).map (fun p => (p.1, sortStr p.2))) ↔ _
    rw [keysOf_mapValues, mem_keysOf_exeToFilesOf]
    exact Iff.rfl
  · intro A OTS ftoe
    rfl

/-- C2 counterexample: two value-set iteration orders of the same
`file_to_executables` contents (related by `valuePermEq`, i.e. equal as
key-indexed sets) produce different exported JSON structures, and the emitted
`file_to_executables` list is not canonically sorted — `export_to_json`
serializes `list(exes)` without sorting, so the exported bytes are not a
function of the inputs alone. -/
theorem c2_export_order_dependent :
    valuePermEq
        [(strL "src/a.cpp", [strL "bin/test_b", strL "bin/test_a"])]
        [(strL "src/a.cpp", [strL "bin/test_a", strL "bin/test_b"])] = true ∧
    export_to_json [] []
        [(strL "src/a.cpp", [strL "bin/test_b", strL "bin/test_a"])] ≠
      export_to_json [] []
        [(strL "src/a.cpp", [strL "bin/test_a", strL "bin/test_b"])] ∧
    lookupList (export_to_json [] []
        [(strL "src/a.cpp", [strL "bin/test_b", strL "bin/test_a"])]).fileToExecutables
        (strL "src/a.cpp") ≠
      sortStr (lookupList (export_to_json [] []
        [(strL "src/a.cpp", [strL "bin/test_b", strL "bin/test_a"])]).fileToExecutables
        (strL "src/a.cpp")) := by
  refine ⟨by decide, by decide, by decide⟩

/-- C2 amended: for a fixed build graph and fixed tool outputs the mapping
contents are deterministic — exports taken under any two value-set iteration
orders agree after canonically sorting keys and value lists, and the
statistics agree as emitted; as serialized, the `executable_to_files` value
lists are sorted, but the `file_to_executables` value lists follow set
iteration order, so byte-identity holds only after the canonical sort. -/
theorem c2_canonical_determinism (A : List (Str × List Str)) (OTS : List (Str × Str))
    (ftoe₁ ftoe₂ : List (Str × List Str)) (h : valuePermEq ftoe₁ ftoe₂ = true) :
    canonExport (export_to_json A OTS ftoe₁) =
      canonExport (export_to_json A OTS ftoe₂) ∧
    (∀ e fs, lookupA (export_to_json A OTS ftoe₁).executableToFiles e = some fs →
      List.Sorted (fun a b => strLe a b = true) fs) := by
  constructor
  · have hkeys : keysOf ftoe₁ = keysOf ftoe₂ := valuePermEq_keysOf h
    have hftoe : canonAssoc ftoe₁ = canonAssoc ftoe₂ := by
      apply canonAssoc_eq
      · rw [hkeys]
      · intro k
        exact sortStr_eq_of_perm (valuePermEq_lookupList_perm h k)
    have hkeysPerm : List.Perm (keysOf (exeToFilesOf ftoe₁))
        (keysOf (exeToFilesOf ftoe₂)) := by
      rw [List.perm_ext_iff_of_nodup (nodup_keysOf_exeToFilesOf _)
        (nodup_keysOf_exeToFilesOf _)]
      intro a
      rw [mem_keysOf_exeToFilesOf, mem_keysOf_exeToFilesOf]
      exact valuePermEq_exists_val_iff h a
    have hlook : ∀ k, sortStr (lookupList (exeToFilesOf ftoe₁) k) =
        sortStr (lookupList (exeToFilesOf ftoe₂) k) := by
      intro k
      apply sortStr_eq_of_perm
      rw [List.perm_ext_iff_of_nodup (nodup_lookupList_exeToFilesOf _ k)
        (nodup_lookupList_exeToFilesOf _ k)]
      intro a
      rw [mem_lookupList_exeToFilesOf, mem_lookupList_exeToFilesOf]
      exact valuePermEq_exists_iff h a k
    have hetof : canonAssoc ((exeToFilesOf ftoe₁).map (fun p => (p.1, sortStr p.2))) =
        canonAssoc ((exeToFilesOf ftoe₂).map (fun p => (p.1, sortStr p.2))) := by
      apply canonAssoc_eq
      · rw [keysOf_mapValues, keysOf_mapValues]
        exact hkeysPerm
      · intro k
        rw [lookupList_mapSort, lookupList_mapSort, sortStr_idem, sortStr_idem]
        exact hlook k
    simp only [canonExport, export_to_json, ExportedMapping.mk.injEq]
    exact ⟨hftoe, hetof, valuePermEq_length h, trivial, trivial, valuePermEq_filter_length h⟩
  · intro e fs hlk
    have hlk2 : lookupA ((exeToFilesOf ftoe₁).map (fun p => (p.1, sortStr p.2))) e =
        some fs := hlk
    rw [lookupA_mapValues] at hlk2
    cases h3 : lookupA (exeToFilesOf ftoe₁) e with
    | none => rw [h3] at hlk2; simp at hlk2
    | some l =>
      rw [h3] at hlk2
      obtain rfl : sortStr l = fs := by injection hlk2
      exact sortStr_sorted l

/-- Witness for C2's amended claim at the counterexample's two iteration
orders: the canonically sorted exports coincide. -/
theorem c2_canonical_determinism_witness :
    canonExport (export_to_json [] []
        [(strL "src/a.cpp", [strL "bin/test_b", strL "bin/test_a"])]) =
      canonExport (export_to_json [] []
        [(strL "src/a.cpp", [strL "bin/test_a", strL "bin/test_b"])]) :=
  (c2_canonical_determinism [] []
    [(strL "src/a.cpp", [strL "bin/test_b", strL "bin/test_a"])]
    [(strL "src/a.cpp", [strL "bin/test_a", strL "bin/test_b"])]
    (by decide)).1
